import Mathlib

/-!
Shallow embedding of the Weight Proof v2 subsystem of the Hydrangea blockchain
(source file `src/chia/full_node/weight_proof_v2.py`), together with theorems
settling the frozen claims about it.  Opaque domain values (hashes, VDF proofs,
class-group outputs, signatures, header blocks) are modelled as natural
numbers; Python integers are modelled as `Int`/`Nat`, Python floats as real
numbers, and code that can raise an exception returns `Option` (`none` models
the exception).
-/

namespace WPV2

/-- Protocol constant `MAX_SAMPLES` of `WeightProofHandlerV2`. -/
def MAX_SAMPLES : Nat := 140

/-- Wire record `SubEpochData` (one per sub-epoch summary), field order as in
`chia.types.weight_proof`: reward chain hash, overflow count, optional new
sub-slot iterations, optional new difficulty. -/
structure SubEpochData where
  reward_chain_hash : Nat
  num_blocks_overflow : Nat
  new_sub_slot_iters : Option Nat
  new_difficulty : Option Nat
deriving DecidableEq

/-- Modelled from the spec: `SubEpochSummary`
(`chia.types.blockchain_format.sub_epoch_summary`, not under `src/`), with the
field order given in the data-model section of the spec. -/
structure SubEpochSummary where
  prev_subepoch_summary_hash : Nat
  reward_chain_hash : Nat
  num_blocks_overflow : Nat
  new_difficulty : Option Nat
  new_sub_slot_iters : Option Nat
deriving DecidableEq

/-- Modelled from the spec: `SubSlotDataV2` (`chia.types.weight_proof`, not
under `src/`): a uniform record of optional fields covering both
block-producing sub-slot data and end-of-slot markers.  The field order is the
positional order used by the constructor calls in `handle_block_vdfs` and
`handle_finished_slots`. -/
structure SubSlotDataV2 where
  proof_of_space : Option Nat
  cc_signage_point : Option Nat
  cc_infusion_point : Option Nat
  signage_point_index : Option Nat
  cc_slot_end : Option Nat
  cc_sp_vdf_output : Option Nat
  cc_ip_vdf_output : Option Nat
  cc_slot_end_output : Option Nat
  icc_infusion_point : Option Nat
  icc_ip_vdf_output : Option Nat
  icc_slot_end : Option Nat
  icc_slot_end_output : Option Nat
  cc_sp_signature : Option Nat
  ip_iters : Option Nat
  total_iters : Option Nat
deriving DecidableEq

/-- Modelled from the spec: discriminator `is_challenge()` of `SubSlotDataV2`
holds exactly when `proof_of_space` is set. -/
def SubSlotDataV2.is_challenge (s : SubSlotDataV2) : Bool :=
  s.proof_of_space.isSome

/-- Modelled from the spec: discriminator `is_end_of_slot()` of `SubSlotDataV2`
holds exactly when some end-of-slot field is set. -/
def SubSlotDataV2.is_end_of_slot (s : SubSlotDataV2) : Bool :=
  s.cc_slot_end.isSome || s.cc_slot_end_output.isSome ||
    s.icc_slot_end.isSome || s.icc_slot_end_output.isSome

/-- Wire record `SubEpochChallengeSegmentV2`. -/
structure SubEpochChallengeSegmentV2 where
  sub_epoch_n : Nat
  sub_slot_data : List SubSlotDataV2
  rc_slot_end_info : Option Nat
  cc_slot_end_info : Option Nat
  icc_sub_slot_hash : Option Nat
  prev_icc_ip_iters : Option Nat
deriving DecidableEq

/-- Wire object `WeightProofV2`; header blocks of the recent chain are opaque
(only emptiness and the last element are inspected by the embedded code). -/
structure WeightProofV2 where
  sub_epochs : List SubEpochData
  sub_epoch_segments : List SubEpochChallengeSegmentV2
  recent_chain_data : List Nat
deriving DecidableEq

/-- The `dataclasses.replace` call of `compress_segment`: set the five fields
`cc_signage_point`, `cc_infusion_point`, `cc_slot_end`, `icc_infusion_point`,
`icc_slot_end` to `None`. -/
def compress_replace (s : SubSlotDataV2) : SubSlotDataV2 :=
  { s with
    cc_signage_point := none
    cc_infusion_point := none
    cc_slot_end := none
    icc_infusion_point := none
    icc_slot_end := none }

/-- The loop of `compress_segment` over `segment.sub_slot_data`, carrying the
`after_challenge` flag, which latches once a record with `is_challenge()` has
been seen. -/
def compress_segment_go (after_challenge : Bool) :
    List SubSlotDataV2 → List SubSlotDataV2
  | [] => []
  | ssd :: rest =>
    (if after_challenge then compress_replace ssd else ssd) ::
      compress_segment_go (after_challenge || ssd.is_challenge) rest

/-- `compress_segment` (weight_proof_v2.py lines 716-741): keep the segment
header fields, strip redundant fields of all sub-slot data after the challenge
record. -/
def compress_segment (segment : SubEpochChallengeSegmentV2) :
    SubEpochChallengeSegmentV2 :=
  { segment with sub_slot_data := compress_segment_go false segment.sub_slot_data }

/-- `compress_segments` (weight_proof_v2.py lines 704-713): compress every
segment other than the one at `full_segment_index`. -/
def compress_segments (full_segment_index : Nat)
    (segments : List SubEpochChallengeSegmentV2) :
    List SubEpochChallengeSegmentV2 :=
  segments.enum.map (fun p => if p.1 ≠ full_segment_index then compress_segment p.2 else p.2)

lemma compress_segment_go_get? (l : List SubSlotDataV2) (b : Bool) (j : Nat) :
    (compress_segment_go b l).get? j =
      (l.get? j).map
        (fun s => if b || (l.take j).any SubSlotDataV2.is_challenge then compress_replace s else s) := by
  induction l generalizing b j with
  | nil => simp [compress_segment_go]
  | cons x xs ih =>
    cases j with
    | zero => simp [compress_segment_go]
    | succ j =>
      simp only [compress_segment_go, List.get?_cons_succ, List.take_succ_cons,
        List.any_cons, ih, Bool.or_assoc]

/-- C8: `compress_segments` leaves the segment at the chosen full index
unchanged; every other segment is rewritten by `compress_segment`, which keeps
`sub_epoch_n` and the four boundary fields, keeps every sub-slot-data record up
to and including the (first) challenge record, and on each record strictly
after the challenge record sets exactly the five fields `cc_signage_point`,
`cc_infusion_point`, `cc_slot_end`, `icc_infusion_point`, `icc_slot_end` to
`none` while preserving the remaining ten fields. -/
theorem compress_segments_frame (full_segment_index : Nat)
    (segments : List SubEpochChallengeSegmentV2) :
    (compress_segments full_segment_index segments).get? full_segment_index =
        segments.get? full_segment_index ∧
    (∀ idx, idx ≠ full_segment_index →
      (compress_segments full_segment_index segments).get? idx =
        (segments.get? idx).map compress_segment) ∧
    (∀ seg : SubEpochChallengeSegmentV2,
      (compress_segment seg).sub_epoch_n = seg.sub_epoch_n ∧
      (compress_segment seg).rc_slot_end_info = seg.rc_slot_end_info ∧
      (compress_segment seg).cc_slot_end_info = seg.cc_slot_end_info ∧
      (compress_segment seg).icc_sub_slot_hash = seg.icc_sub_slot_hash ∧
      (compress_segment seg).prev_icc_ip_iters = seg.prev_icc_ip_iters ∧
      (∀ j, (compress_segment seg).sub_slot_data.get? j =
        (seg.sub_slot_data.get? j).map
          (fun s =>
            if (seg.sub_slot_data.take j).any SubSlotDataV2.is_challenge
            then compress_replace s else s))) ∧
    (∀ s : SubSlotDataV2,
      (compress_replace s).cc_signage_point = none ∧
      (compress_replace s).cc_infusion_point = none ∧
      (compress_replace s).cc_slot_end = none ∧
      (compress_replace s).icc_infusion_point = none ∧
      (compress_replace s).icc_slot_end = none ∧
      (compress_replace s).proof_of_space = s.proof_of_space ∧
      (compress_replace s).signage_point_index = s.signage_point_index ∧
      (compress_replace s).cc_sp_vdf_output = s.cc_sp_vdf_output ∧
      (compress_replace s).cc_ip_vdf_output = s.cc_ip_vdf_output ∧
      (compress_replace s).cc_slot_end_output = s.cc_slot_end_output ∧
      (compress_replace s).icc_ip_vdf_output = s.icc_ip_vdf_output ∧
      (compress_replace s).icc_slot_end_output = s.icc_slot_end_output ∧
      (compress_replace s).cc_sp_signature = s.cc_sp_signature ∧
      (compress_replace s).ip_iters = s.ip_iters ∧
      (compress_replace s).total_iters = s.total_iters) := by
  refine ⟨?_, ?_, ?_, ?_⟩
  · rw [compress_segments, List.get?_map, List.get?_enum]
    cases segments.get? full_segment_index <;> simp
  · intro idx hidx
    rw [compress_segments, List.get?_map, List.get?_enum]
    cases segments.get? idx <;> simp [hidx]
  · intro seg
    refine ⟨rfl, rfl, rfl, rfl, rfl, ?_⟩
    intro j
    simpa using compress_segment_go_get? seg.sub_slot_data false j
  · intro s
    exact ⟨rfl, rfl, rfl, rfl, rfl, rfl, rfl, rfl, rfl, rfl, rfl, rfl, rfl, rfl, rfl⟩

/-- `_create_sub_epoch_data` (weight_proof_v2.py lines 577-586). -/
def create_sub_epoch_data (sub_epoch_summary : SubEpochSummary) : SubEpochData :=
  ⟨sub_epoch_summary.reward_chain_hash, sub_epoch_summary.num_blocks_overflow,
    sub_epoch_summary.new_sub_slot_iters, sub_epoch_summary.new_difficulty⟩

/-- Loop of `_map_sub_epoch_summaries` (weight_proof_v2.py lines 780-815).
`H` is the opaque `std_hash` on summaries, `sub_epoch_blocks` the constant
`SUB_EPOCH_BLOCKS`; the remaining arguments are the running summary hash,
total weight and current difficulty.  Python integer arithmetic is modelled on
`Int`.  Returns `(summaries, total_weight, sub_epoch_weight_list)`. -/
def map_sub_epoch_summaries_go (H : SubEpochSummary → Nat) (sub_epoch_blocks : Int) :
    List SubEpochData → Nat → Int → Nat → List SubEpochSummary × Int × List Int
  | [], _, total_weight, curr_difficulty =>
    ([], total_weight, [total_weight + curr_difficulty])
  | data :: rest, ses_hash, total_weight, curr_difficulty =>
    let ses : SubEpochSummary :=
      ⟨ses_hash, data.reward_chain_hash, data.num_blocks_overflow,
        data.new_difficulty, data.new_sub_slot_iters⟩
    let step : List Int × Int :=
      match rest with
      | [] => ([], total_weight)
      | next :: _ =>
        ([total_weight + curr_difficulty],
          total_weight + (curr_difficulty : Int) *
            (sub_epoch_blocks + (next.num_blocks_overflow : Int) -
              (data.num_blocks_overflow : Int)))
    let next_difficulty := data.new_difficulty.getD curr_difficulty
    let r := map_sub_epoch_summaries_go H sub_epoch_blocks rest (H ses) step.2 next_difficulty
    (ses :: r.1, r.2.1, step.1 ++ r.2.2)

/-- `_map_sub_epoch_summaries` (weight_proof_v2.py lines 780-815), starting
from `GENESIS_CHALLENGE` and `DIFFICULTY_STARTING`. -/
def map_sub_epoch_summaries (H : SubEpochSummary → Nat) (genesis_challenge : Nat)
    (difficulty_starting : Nat) (sub_epoch_blocks : Int)
    (sub_epoch_data : List SubEpochData) : List SubEpochSummary × Int × List Int :=
  map_sub_epoch_summaries_go H sub_epoch_blocks sub_epoch_data genesis_challenge 0
    difficulty_starting

/-- Overflow value `overflow[j]` read off the sub-epoch data list (0 outside
range); used to state the claimed weight recurrence. -/
def spec_overflow (data : List SubEpochData) (j : Nat) : Int :=
  ((data.get? j).map (fun d => (d.num_blocks_overflow : Int))).getD 0

/-- Difficulty sequence of the claimed recurrence: `difficulty[0]` is the
starting difficulty, and `difficulty[i+1]` becomes `new_difficulty` of summary
`i` when that summary carries one. -/
def spec_difficulty (difficulty_starting : Nat) (data : List SubEpochData) : Nat → Nat
  | 0 => difficulty_starting
  | i + 1 =>
    match data.get? i with
    | none => spec_difficulty difficulty_starting data i
    | some d => d.new_difficulty.getD (spec_difficulty difficulty_starting data i)

/-- Cumulative weight of the claimed recurrence:
`weight[i+1] = weight[i] + difficulty[i] * (SUB_EPOCH_BLOCKS + overflow[i+1] - overflow[i])`. -/
def spec_weight (difficulty_starting : Nat) (sub_epoch_blocks : Int)
    (data : List SubEpochData) : Nat → Int
  | 0 => 0
  | i + 1 =>
    spec_weight difficulty_starting sub_epoch_blocks data i +
      (spec_difficulty difficulty_starting data i : Int) *
        (sub_epoch_blocks + spec_overflow data (i + 1) - spec_overflow data i)

lemma spec_difficulty_succ (d0 : Nat) (data : List SubEpochData) (i : Nat) :
    spec_difficulty d0 data (i + 1) =
      match data.get? i with
      | none => spec_difficulty d0 data i
      | some d => d.new_difficulty.getD (spec_difficulty d0 data i) := rfl

lemma spec_difficulty_cons (d0 : Nat) (d : SubEpochData) (rest : List SubEpochData)
    (i : Nat) :
    spec_difficulty d0 (d :: rest) (i + 1) =
      spec_difficulty (d.new_difficulty.getD d0) rest i := by
  induction i with
  | zero => simp [spec_difficulty]
  | succ i ih =>
    rw [spec_difficulty_succ, ih, spec_difficulty_succ]
    rfl

lemma spec_overflow_cons (d : SubEpochData) (rest : List SubEpochData) (j : Nat) :
    spec_overflow (d :: rest) (j + 1) = spec_overflow rest j := by
  simp [spec_overflow]

lemma spec_weight_cons (d0 : Nat) (seb : Int) (d : SubEpochData)
    (rest : List SubEpochData) (i : Nat) :
    spec_weight d0 seb (d :: rest) (i + 1) =
      (d0 : Int) * (seb + spec_overflow (d :: rest) 1 - spec_overflow (d :: rest) 0) +
        spec_weight (d.new_difficulty.getD d0) seb rest i := by
  induction i with
  | zero => simp [spec_weight, spec_difficulty]
  | succ i ih =>
    rw [spec_weight, ih, spec_weight]
    simp only [spec_difficulty_cons, spec_overflow_cons]
    ring

/-- Definitional unfolding of the loop on a singleton list. -/
lemma map_go_singleton (H : SubEpochSummary → Nat) (seb : Int) (d : SubEpochData)
    (hash0 : Nat) (total : Int) (d0 : Nat) :
    map_sub_epoch_summaries_go H seb [d] hash0 total d0 =
      ([⟨hash0, d.reward_chain_hash, d.num_blocks_overflow,
          d.new_difficulty, d.new_sub_slot_iters⟩],
        total, [total + (d.new_difficulty.getD d0 : Int)]) := rfl

/-- Definitional unfolding of the loop when at least two data records remain. -/
lemma map_go_cons_cons (H : SubEpochSummary → Nat) (seb : Int)
    (d next : SubEpochData) (rest2 : List SubEpochData)
    (hash0 : Nat) (total : Int) (d0 : Nat) :
    map_sub_epoch_summaries_go H seb (d :: next :: rest2) hash0 total d0 =
      ((⟨hash0, d.reward_chain_hash, d.num_blocks_overflow,
          d.new_difficulty, d.new_sub_slot_iters⟩ : SubEpochSummary) ::
          (map_sub_epoch_summaries_go H seb (next :: rest2)
            (H ⟨hash0, d.reward_chain_hash, d.num_blocks_overflow,
              d.new_difficulty, d.new_sub_slot_iters⟩)
            (total + (d0 : Int) * (seb + (next.num_blocks_overflow : Int) -
              (d.num_blocks_overflow : Int)))
            (d.new_difficulty.getD d0)).1,
        (map_sub_epoch_summaries_go H seb (next :: rest2)
          (H ⟨hash0, d.reward_chain_hash, d.num_blocks_overflow,
            d.new_difficulty, d.new_sub_slot_iters⟩)
          (total + (d0 : Int) * (seb + (next.num_blocks_overflow : Int) -
            (d.num_blocks_overflow : Int)))
          (d.new_difficulty.getD d0)).2.1,
        (total + (d0 : Int)) ::
          (map_sub_epoch_summaries_go H seb (next :: rest2)
            (H ⟨hash0, d.reward_chain_hash, d.num_blocks_overflow,
              d.new_difficulty, d.new_sub_slot_iters⟩)
            (total + (d0 : Int) * (seb + (next.num_blocks_overflow : Int) -
              (d.num_blocks_overflow : Int)))
            (d.new_difficulty.getD d0)).2.2) := rfl

lemma map_go_weight_list (H : SubEpochSummary → Nat) (seb : Int) :
    ∀ (data : List SubEpochData) (hash0 : Nat) (total : Int) (d0 : Nat),
      ((map_sub_epoch_summaries_go H seb data hash0 total d0).2.2.length =
          max data.length 1) ∧
      (∀ i, i + 1 < data.length →
        (map_sub_epoch_summaries_go H seb data hash0 total d0).2.2.get? i =
          some (total + spec_weight d0 seb data i + (spec_difficulty d0 data i : Int))) ∧
      (data.length ≠ 0 →
        (map_sub_epoch_summaries_go H seb data hash0 total d0).2.2.get? (data.length - 1) =
          some (total + spec_weight d0 seb data (data.length - 1) +
            (spec_difficulty d0 data data.length : Int))) := by
  intro data
  induction data with
  | nil =>
    intro hash0 total d0
    refine ⟨by simp [map_sub_epoch_summaries_go], ?_, ?_⟩
    · intro i hi; simp at hi
    · intro h; simp at h
  | cons d rest ih =>
    intro hash0 total d0
    cases rest with
    | nil =>
      refine ⟨by simp [map_go_singleton], ?_, ?_⟩
      · intro i hi; simp at hi
      · intro _
        simp [map_go_singleton, spec_weight, spec_difficulty]
    | cons next rest2 =>
      have hrec := ih (H ⟨hash0, d.reward_chain_hash, d.num_blocks_overflow,
        d.new_difficulty, d.new_sub_slot_iters⟩)
        (total + (d0 : Int) * (seb + (next.num_blocks_overflow : Int) -
          (d.num_blocks_overflow : Int)))
        (d.new_difficulty.getD d0)
      have hov1 : spec_overflow (d :: next :: rest2) 1 = (next.num_blocks_overflow : Int) := by
        simp [spec_overflow]
      have hov0 : spec_overflow (d :: next :: rest2) 0 = (d.num_blocks_overflow : Int) := by
        simp [spec_overflow]
      refine ⟨?_, ?_, ?_⟩
      · rw [map_go_cons_cons]
        simp only [List.length_cons, hrec.1]
        simp
      · intro i hi
        cases i with
        | zero =>
          rw [map_go_cons_cons]
          simp [spec_weight, spec_difficulty]
        | succ i =>
          have hi2 : i + 1 < (next :: rest2).length := by
            simp only [List.length_cons] at hi ⊢
            omega
          have hmid := hrec.2.1 i hi2
          rw [map_go_cons_cons]
          simp only [List.get?_cons_succ]
          rw [hmid, spec_weight_cons, spec_difficulty_cons, hov1, hov0]
          congr 1
          ring
      · intro _
        have hne : (next :: rest2).length ≠ 0 := by simp
        have hlast := hrec.2.2 hne
        rw [map_go_cons_cons]
        simp only [List.length_cons, Nat.add_sub_cancel] at hlast ⊢
        simp only [List.get?_cons_succ]
        rw [hlast, spec_weight_cons, hov1, hov0]
        simp only [spec_difficulty_cons]
        congr 1
        ring

/-- C4 counterexample: with starting difficulty 1, `SUB_EPOCH_BLOCKS = 2` and
two sub-epoch data records whose second carries `new_difficulty = 7`, the last
entry of `sub_epoch_weight_list` is `9 = weight[1] + 7` (the difficulty after
applying the last summary's `new_difficulty`), while the claimed value
`weight[1] + difficulty[1]` is `3`. -/
theorem map_sub_epoch_summaries_last_entry_counterexample :
    ((map_sub_epoch_summaries (fun _ => 0) 0 1 2
        [⟨0, 0, none, none⟩, ⟨0, 0, none, some 7⟩]).2.2.get? 1 = some 9) ∧
    spec_weight 1 2 [⟨0, 0, none, none⟩, ⟨0, 0, none, some 7⟩] 1 +
      (spec_difficulty 1 [⟨0, 0, none, none⟩, ⟨0, 0, none, some 7⟩] 1 : Int) = 3 := by
  constructor <;> decide

/-- C4 (amended): `_map_sub_epoch_summaries` computes cumulative weights by the
claimed recurrence and returns the weight list whose entry for sub-epoch `i`
equals `weight[i] + difficulty[i]` for every `i < n - 1`, while the final entry
(for sub-epoch `n - 1`) equals `weight[n-1] + difficulty[n]`, i.e. it uses the
difficulty after applying the last summary's `new_difficulty`. -/
theorem map_sub_epoch_summaries_weight_recurrence (H : SubEpochSummary → Nat)
    (genesis_challenge difficulty_starting : Nat) (sub_epoch_blocks : Int)
    (data : List SubEpochData) :
    (∀ i, i + 1 < data.length →
      (map_sub_epoch_summaries H genesis_challenge difficulty_starting sub_epoch_blocks
          data).2.2.get? i =
        some (spec_weight difficulty_starting sub_epoch_blocks data i +
          (spec_difficulty difficulty_starting data i : Int))) ∧
    (data.length ≠ 0 →
      (map_sub_epoch_summaries H genesis_challenge difficulty_starting sub_epoch_blocks
          data).2.2.get? (data.length - 1) =
        some (spec_weight difficulty_starting sub_epoch_blocks data (data.length - 1) +
          (spec_difficulty difficulty_starting data data.length : Int))) := by
  have h := map_go_weight_list H sub_epoch_blocks data genesis_challenge 0 difficulty_starting
  refine ⟨fun i hi => ?_, fun hne => ?_⟩
  · simpa using h.2.1 i hi
  · simpa using h.2.2 hne

/-- Witness for the amended C4 theorem at a concrete two-record input. -/
theorem map_sub_epoch_summaries_weight_recurrence_witness :
    ((map_sub_epoch_summaries (fun _ => 0) 0 1 2
        [⟨0, 0, none, none⟩, ⟨0, 0, none, some 7⟩]).2.2.get? 0 =
      some (spec_weight 1 2 [⟨0, 0, none, none⟩, ⟨0, 0, none, some 7⟩] 0 +
        (spec_difficulty 1 [⟨0, 0, none, none⟩, ⟨0, 0, none, some 7⟩] 0 : Int))) ∧
    ((map_sub_epoch_summaries (fun _ => 0) 0 1 2
        [⟨0, 0, none, none⟩, ⟨0, 0, none, some 7⟩]).2.2.get? 1 =
      some (spec_weight 1 2 [⟨0, 0, none, none⟩, ⟨0, 0, none, some 7⟩] 1 +
        (spec_difficulty 1 [⟨0, 0, none, none⟩, ⟨0, 0, none, some 7⟩] 2 : Int))) :=
  ⟨(map_sub_epoch_summaries_weight_recurrence (fun _ => 0) 0 1 2
      [⟨0, 0, none, none⟩, ⟨0, 0, none, some 7⟩]).1 0 (by decide),
    by
      simpa using (map_sub_epoch_summaries_weight_recurrence (fun _ => 0) 0 1 2
        [⟨0, 0, none, none⟩, ⟨0, 0, none, some 7⟩]).2 (by decide)⟩

/-- Summary chain predicate: the list of summaries is linked by
`prev_subepoch_summary_hash` starting from the given hash, each link being the
opaque hash `H` of the preceding summary. -/
def chained_from (H : SubEpochSummary → Nat) : Nat → List SubEpochSummary → Prop
  | _, [] => True
  | h, s :: rest => s.prev_subepoch_summary_hash = h ∧ chained_from H (H s) rest

lemma map_go_roundtrip (H : SubEpochSummary → Nat) (seb : Int) :
    ∀ (ss : List SubEpochSummary) (hash0 : Nat) (total : Int) (d0 : Nat),
      chained_from H hash0 ss →
      (map_sub_epoch_summaries_go H seb (ss.map create_sub_epoch_data)
          hash0 total d0).1 = ss := by
  intro ss
  induction ss with
  | nil => intro hash0 total d0 _; rfl
  | cons s rest ih =>
    intro hash0 total d0 hch
    obtain ⟨hprev, hrest⟩ := hch
    have hses : (⟨hash0, (create_sub_epoch_data s).reward_chain_hash,
        (create_sub_epoch_data s).num_blocks_overflow,
        (create_sub_epoch_data s).new_difficulty,
        (create_sub_epoch_data s).new_sub_slot_iters⟩ : SubEpochSummary) = s := by
      cases s
      simp_all [create_sub_epoch_data]
    cases rest with
    | nil =>
      simp only [List.map_cons, List.map_nil, map_go_singleton]
      rw [hses]
    | cons s2 rest2 =>
      simp only [List.map_cons] at hrest ⊢
      rw [map_go_cons_cons]
      simp only [create_sub_epoch_data] at hses ⊢
      rw [hses]
      exact congrArg (s :: ·) (ih _ _ _ hrest)

/-- C7: mapping a `prev_summary_hash`-linked chain of summaries through
`_create_sub_epoch_data` and rebuilding with `_map_sub_epoch_summaries`
(seeded with the genesis challenge) reproduces exactly the original
`SubEpochSummary` sequence; in particular every reconstructed
`prev_subepoch_summary_hash` equals the hash of the preceding summary. -/
theorem map_create_sub_epoch_data_roundtrip (H : SubEpochSummary → Nat)
    (genesis_challenge difficulty_starting : Nat) (sub_epoch_blocks : Int)
    (summaries : List SubEpochSummary)
    (hch : chained_from H genesis_challenge summaries) :
    (map_sub_epoch_summaries H genesis_challenge difficulty_starting sub_epoch_blocks
        (summaries.map create_sub_epoch_data)).1 = summaries :=
  map_go_roundtrip H sub_epoch_blocks summaries genesis_challenge 0
    difficulty_starting hch

/-- Witness for the C7 round-trip at a concrete two-summary chain. -/
theorem map_create_sub_epoch_data_roundtrip_witness :
    (map_sub_epoch_summaries (fun s => s.reward_chain_hash + 1) 5 1 2
        ([⟨5, 10, 0, none, none⟩, ⟨11, 20, 1, some 3, some 4⟩].map
          create_sub_epoch_data)).1 =
      [⟨5, 10, 0, none, none⟩, ⟨11, 20, 1, some 3, some 4⟩] :=
  map_create_sub_epoch_data_roundtrip (fun s => s.reward_chain_hash + 1) 5 1 2
    [⟨5, 10, 0, none, none⟩, ⟨11, 20, 1, some 3, some 4⟩] ⟨rfl, rfl, trivial⟩

/-- Loop of `get_fork_point` (weight_proof_v2.py lines 134-152): walk the local
`ses_heights` in order, comparing the local summary's hash against the received
summary at the same index, recording the last index of the matching prefix in
`fork_point_index`.  `H` is the opaque `get_hash`, `get_ses` the blockchain's
summary lookup.  `none` models the `IndexError` raised when a local summary
exists at an index beyond the received list. -/
def get_fork_point_index_go (H : SubEpochSummary → Nat)
    (get_ses : Nat → Option SubEpochSummary)
    (received_summaries : List SubEpochSummary) :
    List Nat → Nat → Nat → Option Nat
  | [], _, fork_point_index => some fork_point_index
  | summary_height :: rest, idx, fork_point_index =>
    match get_ses summary_height with
    | none => some fork_point_index
    | some local_ses =>
      match received_summaries.get? idx with
      | none => none
      | some r =>
        if H local_ses ≠ H r then some fork_point_index
        else get_fork_point_index_go H get_ses received_summaries rest (idx + 1) idx

/-- `get_fork_point` (weight_proof_v2.py lines 134-152): returns
`ses_heights[fork_point_index - 2]` when `fork_point_index > 2`, height 0
otherwise. -/
def get_fork_point (H : SubEpochSummary → Nat)
    (get_ses : Nat → Option SubEpochSummary) (ses_heights : List Nat)
    (received_summaries : List SubEpochSummary) : Option Nat :=
  (get_fork_point_index_go H get_ses received_summaries ses_heights 0 0).map
    (fun fork_point_index =>
      if fork_point_index > 2 then (ses_heights.get? (fork_point_index - 2)).getD 0
      else 0)

/-- Match predicate of the fork-point walk: the local summary at the given
height exists and hash-equals the received summary at the given index. -/
def ses_match (H : SubEpochSummary → Nat) (get_ses : Nat → Option SubEpochSummary)
    (received_summaries : List SubEpochSummary) (height idx : Nat) : Bool :=
  match get_ses height with
  | none => false
  | some local_ses =>
    match received_summaries.get? idx with
    | none => false
    | some r => H local_ses = H r

/-- Length of the longest matching prefix of the local summary chain against
the received summaries, starting at the given index. -/
def matching_len (H : SubEpochSummary → Nat) (get_ses : Nat → Option SubEpochSummary)
    (received_summaries : List SubEpochSummary) : List Nat → Nat → Nat
  | [], _ => 0
  | height :: rest, idx =>
    if ses_match H get_ses received_summaries height idx
    then 1 + matching_len H get_ses received_summaries rest (idx + 1) else 0

/-- Largest single index (not prefix) at which the local summary hash-matches
the received one; this is the `k` of the claim as literally stated. -/
def largest_matching_index (H : SubEpochSummary → Nat)
    (get_ses : Nat → Option SubEpochSummary) (ses_heights : List Nat)
    (received_summaries : List SubEpochSummary) : Option Nat :=
  ((List.range ses_heights.length).filter
    (fun k => ses_match H get_ses received_summaries ((ses_heights.get? k).getD 0) k)).max?

/-- Fork point as the claim literally states it: `ses_heights[k - 2]` for the
largest matching index `k` when `k > 2`, else 0. -/
def claim_fork_point (H : SubEpochSummary → Nat)
    (get_ses : Nat → Option SubEpochSummary) (ses_heights : List Nat)
    (received_summaries : List SubEpochSummary) : Nat :=
  match largest_matching_index H get_ses ses_heights received_summaries with
  | none => 0
  | some k => if k > 2 then (ses_heights.get? (k - 2)).getD 0 else 0

lemma get_fork_point_index_go_spec (H : SubEpochSummary → Nat)
    (get_ses : Nat → Option SubEpochSummary)
    (received_summaries : List SubEpochSummary) :
    ∀ (hs : List Nat) (idx fork_point_index : Nat),
      (∀ j, j < hs.length → idx + j < received_summaries.length) →
      get_fork_point_index_go H get_ses received_summaries hs idx fork_point_index =
        some (if matching_len H get_ses received_summaries hs idx = 0
          then fork_point_index
          else idx + matching_len H get_ses received_summaries hs idx - 1) := by
  intro hs
  induction hs with
  | nil => intro idx fpi _; simp [get_fork_point_index_go, matching_len]
  | cons h rest ih =>
    intro idx fpi hsafe
    rw [get_fork_point_index_go]
    cases hls : get_ses h with
    | none => simp [matching_len, ses_match, hls]
    | some local_ses =>
      have hidx : idx < received_summaries.length := by
        have := hsafe 0 (by simp)
        simpa using this
      obtain ⟨r, hr⟩ : ∃ r, received_summaries.get? idx = some r :=
        ⟨received_summaries.get ⟨idx, hidx⟩, List.get?_eq_get hidx⟩
      have hr2 : received_summaries[idx]? = some r := by
        rw [← List.get?_eq_getElem?]; exact hr
      simp only [hr]
      by_cases hmatch : H local_ses = H r
      · have hsafe2 : ∀ j, j < rest.length → idx + 1 + j < received_summaries.length := by
          intro j hj
          have := hsafe (j + 1) (by simp only [List.length_cons]; omega)
          omega
        have hrec := ih (idx + 1) idx hsafe2
        have hml : matching_len H get_ses received_summaries (h :: rest) idx =
            1 + matching_len H get_ses received_summaries rest (idx + 1) := by
          simp [matching_len, ses_match, hls, hr2, hmatch]
        rw [if_neg (not_not_intro hmatch), hrec, hml]
        rcases Nat.eq_zero_or_pos (matching_len H get_ses received_summaries rest (idx + 1))
          with h0 | hpos
        · simp [h0]
        · rw [if_neg (by omega), if_neg (by omega)]
          congr 1
          omega
      · have hml : matching_len H get_ses received_summaries (h :: rest) idx = 0 := by
          simp [matching_len, ses_match, hls, hr2, hmatch]
        rw [if_pos hmatch, hml]
        simp

/-- C5 counterexample: local summaries match the received ones at indices
0, 1, 3 and 4 but not at 2, so the largest matching index is 4 and the claim
as stated demands `ses_heights[2] = 30`; the code stops at the first mismatch
(`fork_point_index = 1 ≤ 2`) and returns height 0. -/
theorem get_fork_point_counterexample :
    get_fork_point (fun s => s.reward_chain_hash)
        (fun h => if h = 10 then some ⟨0, 0, 0, none, none⟩
          else if h = 20 then some ⟨0, 1, 0, none, none⟩
          else if h = 30 then some ⟨0, 99, 0, none, none⟩
          else if h = 40 then some ⟨0, 3, 0, none, none⟩
          else if h = 50 then some ⟨0, 4, 0, none, none⟩ else none)
        [10, 20, 30, 40, 50]
        [⟨0, 0, 0, none, none⟩, ⟨0, 1, 0, none, none⟩, ⟨0, 2, 0, none, none⟩,
          ⟨0, 3, 0, none, none⟩, ⟨0, 4, 0, none, none⟩] = some 0 ∧
    claim_fork_point (fun s => s.reward_chain_hash)
        (fun h => if h = 10 then some ⟨0, 0, 0, none, none⟩
          else if h = 20 then some ⟨0, 1, 0, none, none⟩
          else if h = 30 then some ⟨0, 99, 0, none, none⟩
          else if h = 40 then some ⟨0, 3, 0, none, none⟩
          else if h = 50 then some ⟨0, 4, 0, none, none⟩ else none)
        [10, 20, 30, 40, 50]
        [⟨0, 0, 0, none, none⟩, ⟨0, 1, 0, none, none⟩, ⟨0, 2, 0, none, none⟩,
          ⟨0, 3, 0, none, none⟩, ⟨0, 4, 0, none, none⟩] = 30 := by
  constructor <;> decide

/-- C5 (amended): provided the local chain has no more summaries than were
received, `get_fork_point` returns `ses_heights[k - 2]` where `k` is the
largest index such that the local summaries at `ses_heights[0..k]` all
hash-match `received_summaries[0..k]` (the longest matching prefix), when
`k > 2`, and height 0 otherwise; in particular when every local summary
matches and there are at least 4 of them, it returns
`ses_heights[n - 3]`, the height of the summary two before the last local
one. -/
theorem get_fork_point_prefix_match (H : SubEpochSummary → Nat)
    (get_ses : Nat → Option SubEpochSummary) (ses_heights : List Nat)
    (received_summaries : List SubEpochSummary)
    (hlen : ses_heights.length ≤ received_summaries.length) :
    (get_fork_point H get_ses ses_heights received_summaries =
      some (if matching_len H get_ses received_summaries ses_heights 0 - 1 > 2
        then (ses_heights.get?
          (matching_len H get_ses received_summaries ses_heights 0 - 1 - 2)).getD 0
        else 0)) ∧
    (matching_len H get_ses received_summaries ses_heights 0 = ses_heights.length →
      3 < ses_heights.length →
      get_fork_point H get_ses ses_heights received_summaries =
        some ((ses_heights.get? (ses_heights.length - 3)).getD 0)) := by
  have hgo := get_fork_point_index_go_spec H get_ses received_summaries ses_heights 0 0
    (fun j hj => by omega)
  have hfpi : get_fork_point_index_go H get_ses received_summaries ses_heights 0 0 =
      some (matching_len H get_ses received_summaries ses_heights 0 - 1) := by
    rw [hgo]
    rcases Nat.eq_zero_or_pos (matching_len H get_ses received_summaries ses_heights 0)
      with h0 | hpos
    · simp [h0]
    · have hne : matching_len H get_ses received_summaries ses_heights 0 ≠ 0 := by omega
      simp only [hne, if_false]
      congr 1
      omega
  constructor
  · rw [get_fork_point, hfpi]
    rfl
  · intro hall hlen4
    rw [get_fork_point, hfpi, hall]
    have hgt : ses_heights.length - 1 > 2 := by omega
    have hidx : ses_heights.length - 1 - 2 = ses_heights.length - 3 := by omega
    simp only [Option.map_some']
    rw [if_pos hgt, hidx]

/-- Witness for the amended C5 theorem: five identical summaries on both
sides yield `ses_heights[2] = 30`. -/
theorem get_fork_point_prefix_match_witness :
    get_fork_point (fun s => s.reward_chain_hash)
        (fun h => if h ≤ 50 then some ⟨0, h, 0, none, none⟩ else none)
        [10, 20, 30, 40, 50]
        [⟨0, 10, 0, none, none⟩, ⟨0, 20, 0, none, none⟩, ⟨0, 30, 0, none, none⟩,
          ⟨0, 40, 0, none, none⟩, ⟨0, 50, 0, none, none⟩] =
      some ((([10, 20, 30, 40, 50] : List Nat).get? (5 - 3)).getD 0) :=
  (get_fork_point_prefix_match (fun s => s.reward_chain_hash)
      (fun h => if h ≤ 50 then some ⟨0, h, 0, none, none⟩ else none)
      [10, 20, 30, 40, 50]
      [⟨0, 10, 0, none, none⟩, ⟨0, 20, 0, none, none⟩, ⟨0, 30, 0, none, none⟩,
        ⟨0, 40, 0, none, none⟩, ⟨0, 50, 0, none, none⟩]
      (by decide)).2 (by decide) (by decide)

/-- `validate_weight_proof` of `WeightProofHandlerV2` (weight_proof_v2.py
lines 96-132).  The four validation stages are abstracted as function
parameters: `validate_summaries` stands for `_validate_sub_epoch_summaries`
(returning the summaries and the sub-epoch weight list, or `none` on failure),
`sampling_ok` for `validate_sub_epoch_sampling`, `segments_ok` for
`_validate_sub_epoch_segments`, `recent_ok` for the `_validate_recent_blocks`
task, and `fork_point_of` for `get_fork_point`.  The unguarded
`recent_chain_data[-1]` read at line 102 is modelled by `getLast?`; `none`
models the `IndexError` it raises on an empty recent chain. -/
def validate_weight_proof
    (validate_summaries : WeightProofV2 → Option (List SubEpochSummary × List Int))
    (sampling_ok : List Int → WeightProofV2 → Bool)
    (segments_ok : WeightProofV2 → Bool)
    (recent_ok : WeightProofV2 → Bool)
    (fork_point_of : List SubEpochSummary → Nat)
    (weight_proof : WeightProofV2) : Option (Bool × Nat × List SubEpochSummary) :=
  if weight_proof.sub_epochs = [] then some (false, 0, [])
  else
    match weight_proof.recent_chain_data.getLast? with
    | none => none
    | some _peak =>
      match validate_summaries weight_proof with
      | none => some (false, 0, [])
      | some (summaries, sub_epoch_weight_list) =>
        if sampling_ok sub_epoch_weight_list weight_proof = false then some (false, 0, [])
        else if segments_ok weight_proof = false then some (false, 0, [])
        else if recent_ok weight_proof = false then some (false, 0, [])
        else some (true, fork_point_of summaries, summaries)

/-- C9: `validate_weight_proof` raises (returns `none` in the model) exactly
when `sub_epochs` is non-empty and `recent_chain_data` is empty: the
`recent_chain_data[-1]` read happens before any other validation step, so for
every choice of stage outcomes a proof with non-empty `sub_epochs` and empty
`recent_chain_data` hits the unguarded indexing instead of the documented
`(False, 0, [])` rejection, and with a non-empty recent chain it never does. -/
theorem validate_weight_proof_recent_chain_guard
    (validate_summaries : WeightProofV2 → Option (List SubEpochSummary × List Int))
    (sampling_ok : List Int → WeightProofV2 → Bool)
    (segments_ok : WeightProofV2 → Bool)
    (recent_ok : WeightProofV2 → Bool)
    (fork_point_of : List SubEpochSummary → Nat)
    (weight_proof : WeightProofV2) :
    validate_weight_proof validate_summaries sampling_ok segments_ok recent_ok
        fork_point_of weight_proof = none ↔
      weight_proof.sub_epochs ≠ [] ∧ weight_proof.recent_chain_data = [] := by
  rw [validate_weight_proof]
  by_cases hse : weight_proof.sub_epochs = []
  · simp [hse]
  · simp only [hse, if_false, ne_eq, not_false_eq_true, true_and]
    cases hl : weight_proof.recent_chain_data.getLast? with
    | none =>
      simp only [List.getLast?_eq_none_iff] at hl
      simp [hl]
    | some x =>
      have hne : weight_proof.recent_chain_data ≠ [] := by
        intro he
        rw [he] at hl
        simp at hl
      simp only [hne, iff_false]
      cases hvs : validate_summaries weight_proof with
      | none => simp
      | some p =>
        obtain ⟨s, w⟩ := p
        cases h1 : sampling_ok w weight_proof <;>
          cases h2 : segments_ok weight_proof <;>
            cases h3 : recent_ok weight_proof <;> simp [h1, h2, h3]

/-- C6: `validate_weight_proof` (on a proof whose recent chain is non-empty,
cf. C9) returns exactly `(false, 0, [])` when any validation stage fails —
empty `sub_epochs`, summary validation returning `none`, sampling replay
failure, segment validation failure, or recent-chain validation failure — and
returns `(true, fork_point, summaries)` exactly when every stage succeeds. -/
theorem validate_weight_proof_stage_failures
    (validate_summaries : WeightProofV2 → Option (List SubEpochSummary × List Int))
    (sampling_ok : List Int → WeightProofV2 → Bool)
    (segments_ok : WeightProofV2 → Bool)
    (recent_ok : WeightProofV2 → Bool)
    (fork_point_of : List SubEpochSummary → Nat)
    (weight_proof : WeightProofV2)
    (hrec : weight_proof.recent_chain_data ≠ []) :
    (validate_weight_proof validate_summaries sampling_ok segments_ok recent_ok
        fork_point_of weight_proof = some (false, 0, []) ↔
      (weight_proof.sub_epochs = [] ∨ validate_summaries weight_proof = none ∨
        (∃ s w, validate_summaries weight_proof = some (s, w) ∧
          (sampling_ok w weight_proof = false ∨ segments_ok weight_proof = false ∨
            recent_ok weight_proof = false)))) ∧
    (∀ s w, validate_summaries weight_proof = some (s, w) →
      weight_proof.sub_epochs ≠ [] → sampling_ok w weight_proof = true →
      segments_ok weight_proof = true → recent_ok weight_proof = true →
      validate_weight_proof validate_summaries sampling_ok segments_ok recent_ok
          fork_point_of weight_proof = some (true, fork_point_of s, s)) := by
  obtain ⟨x, hx⟩ : ∃ x, weight_proof.recent_chain_data.getLast? = some x := by
    cases hl : weight_proof.recent_chain_data.getLast? with
    | none =>
      simp only [List.getLast?_eq_none_iff] at hl
      exact absurd hl hrec
    | some y => exact ⟨y, rfl⟩
  constructor
  · rw [validate_weight_proof]
    by_cases hse : weight_proof.sub_epochs = []
    · simp [hse]
    · simp only [hse, if_false, hx, false_or]
      cases hvs : validate_summaries weight_proof with
      | none => simp
      | some p =>
        obtain ⟨s, w⟩ := p
        constructor
        · intro h
          refine Or.inr ⟨s, w, rfl, ?_⟩
          cases h1 : sampling_ok w weight_proof with
          | false => exact Or.inl rfl
          | true =>
            cases h2 : segments_ok weight_proof with
            | false => exact Or.inr (Or.inl rfl)
            | true =>
              cases h3 : recent_ok weight_proof with
              | false => exact Or.inr (Or.inr rfl)
              | true => simp [h1, h2, h3] at h
        · intro hdis
          rcases hdis with hnone | ⟨s2, w2, hvs2, hfail⟩
          · exact absurd hnone (by simp)
          obtain ⟨hs, hw⟩ : s = s2 ∧ w = w2 := by
            have hp := Option.some.inj hvs2
            exact ⟨congrArg Prod.fst hp, congrArg Prod.snd hp⟩
          subst hs; subst hw
          rcases hfail with h1 | h2 | h3
          · simp [h1]
          · cases h1 : sampling_ok w weight_proof <;> simp [h1, h2]
          · cases h1 : sampling_ok w weight_proof <;>
              cases h2 : segments_ok weight_proof <;> simp [h1, h2, h3]
  · intro s w hvs hse h1 h2 h3
    rw [validate_weight_proof]
    simp [hse, hx, hvs, h1, h2, h3]

/-- Closed witness for the C6 theorem at a concrete proof whose summary
validation stage fails. -/
theorem validate_weight_proof_stage_failures_witness :
    ((⟨[⟨0, 0, none, none⟩], [], [7]⟩ : WeightProofV2).recent_chain_data ≠ []) ∧
    (validate_weight_proof (fun _ => none) (fun _ _ => true) (fun _ => true)
        (fun _ => true) (fun _ => 0) ⟨[⟨0, 0, none, none⟩], [], [7]⟩ =
          some (false, 0, []) ↔
      ((⟨[⟨0, 0, none, none⟩], [], [7]⟩ : WeightProofV2).sub_epochs = [] ∨
        (fun (_ : WeightProofV2) =>
          (none : Option (List SubEpochSummary × List Int))) ⟨[⟨0, 0, none, none⟩], [], [7]⟩ = none ∨
        (∃ s w, (fun (_ : WeightProofV2) =>
            (none : Option (List SubEpochSummary × List Int))) ⟨[⟨0, 0, none, none⟩], [], [7]⟩ =
              some (s, w) ∧
          ((fun (_ : List Int) (_ : WeightProofV2) => true) w
              ⟨[⟨0, 0, none, none⟩], [], [7]⟩ = false ∨
            (fun (_ : WeightProofV2) => true) ⟨[⟨0, 0, none, none⟩], [], [7]⟩ = false ∨
            (fun (_ : WeightProofV2) => true) ⟨[⟨0, 0, none, none⟩], [], [7]⟩ = false)))) :=
  ⟨by decide,
    (validate_weight_proof_stage_failures (fun _ => none) (fun _ _ => true)
      (fun _ => true) (fun _ => true) (fun _ => 0)
      ⟨[⟨0, 0, none, none⟩], [], [7]⟩ (by decide)).1⟩

/-- Totals contributed by one segment, as returned by `_validate_segment`:
its `prev_challenge_ip_iters` (named `ip_iters` in `validate_sub_epoch`), the
slot iterations it accumulated and the number of end-of-slot records it
contributed. -/
structure SegmentTotals where
  ip_iters : Nat
  slot_iters : Nat
  slots : Nat
deriving DecidableEq

/-- Sum of `slot_iters` over a list of segment results. -/
def totals_slot_iters (rs : List SegmentTotals) : Nat :=
  (rs.map (fun r => r.slot_iters)).sum

/-- Sum of `slots` over a list of segment results. -/
def totals_slots (rs : List SegmentTotals) : Nat :=
  (rs.map (fun r => r.slots)).sum

/-- Sum of `ip_iters` over a list of segment results. -/
def totals_ip_iters (rs : List SegmentTotals) : Nat :=
  (rs.map (fun r => r.ip_iters)).sum

/-- Accumulation loop of `validate_sub_epoch` (weight_proof_v2.py lines
876-909) over the per-segment results of `_validate_segment`, abstracted as a
list of `Option SegmentTotals` (`none` models a `_validate_segment` failure,
on which the loop returns `False`).  After each segment `total_blocks` is
incremented by one, the segment totals are added, and
`avg_slot_iters / avg_ip_iters < WEIGHT_PROOF_THRESHOLD` is checked, the float
divisions modelled in exact rational arithmetic.  `none` models the
`ZeroDivisionError` raised when `total_slots = 0` (line 906) or
`avg_ip_iters = 0` (line 907). -/
def validate_sub_epoch_loop (threshold : Rat) :
    List (Option SegmentTotals) → Nat → Nat → Nat → Nat → Option Bool
  | [], _, _, _, _ => some true
  | none :: _, _, _, _, _ => some false
  | some r :: rest, total_blocks, total_slot_iters, total_slots, total_ip_iters =>
    if total_slots + r.slots = 0 ∨ total_ip_iters + r.ip_iters = 0 then none
    else if ((total_slot_iters + r.slot_iters : Nat) : Rat) /
          ((total_slots + r.slots : Nat) : Rat) /
          (((total_ip_iters + r.ip_iters : Nat) : Rat) /
            ((total_blocks + 1 : Nat) : Rat)) < threshold then some false
    else validate_sub_epoch_loop threshold rest (total_blocks + 1)
      (total_slot_iters + r.slot_iters) (total_slots + r.slots)
      (total_ip_iters + r.ip_iters)

/-- The ratio checks of `validate_sub_epoch`, started from zero accumulators
as at line 850-851. -/
def validate_sub_epoch_ratio_checks (threshold : Rat)
    (results : List (Option SegmentTotals)) : Option Bool :=
  validate_sub_epoch_loop threshold results 0 0 0 0

/-- The checkpoint ratio computed after segment `k`:
`avg_slot_iters / avg_ip_iters` with the averages taken over the first `k + 1`
segment results. -/
def checkpoint_ratio (rs : List SegmentTotals) (k : Nat) : Rat :=
  ((totals_slot_iters (rs.take (k + 1)) : Rat) /
      (totals_slots (rs.take (k + 1)) : Rat)) /
    ((totals_ip_iters (rs.take (k + 1)) : Rat) / ((k + 1 : Nat) : Rat))

/-- The checkpoint ratio relative to accumulator values `tb`, `tsi`, `ts`,
`tii` carried into the loop. -/
def acc_ratio (tb tsi ts tii : Nat) (rs : List SegmentTotals) (k : Nat) : Rat :=
  (((tsi + totals_slot_iters (rs.take (k + 1)) : Nat) : Rat) /
      ((ts + totals_slots (rs.take (k + 1)) : Nat) : Rat)) /
    (((tii + totals_ip_iters (rs.take (k + 1)) : Nat) : Rat) /
      ((tb + k + 1 : Nat) : Rat))

lemma totals_slot_iters_cons (r : SegmentTotals) (l : List SegmentTotals) :
    totals_slot_iters (r :: l) = r.slot_iters + totals_slot_iters l := by
  simp [totals_slot_iters]

lemma totals_slots_cons (r : SegmentTotals) (l : List SegmentTotals) :
    totals_slots (r :: l) = r.slots + totals_slots l := by
  simp [totals_slots]

lemma totals_ip_iters_cons (r : SegmentTotals) (l : List SegmentTotals) :
    totals_ip_iters (r :: l) = r.ip_iters + totals_ip_iters l := by
  simp [totals_ip_iters]

lemma acc_ratio_zero (tb tsi ts tii : Nat) (r : SegmentTotals)
    (rest : List SegmentTotals) :
    acc_ratio tb tsi ts tii (r :: rest) 0 =
      ((tsi + r.slot_iters : Nat) : Rat) / ((ts + r.slots : Nat) : Rat) /
        (((tii + r.ip_iters : Nat) : Rat) / ((tb + 1 : Nat) : Rat)) := by
  simp [acc_ratio, totals_slot_iters, totals_slots, totals_ip_iters]

lemma acc_ratio_succ (tb tsi ts tii : Nat) (r : SegmentTotals)
    (rest : List SegmentTotals) (k : Nat) :
    acc_ratio tb tsi ts tii (r :: rest) (k + 1) =
      acc_ratio (tb + 1) (tsi + r.slot_iters) (ts + r.slots) (tii + r.ip_iters)
        rest k := by
  rw [acc_ratio, acc_ratio, List.take_succ_cons, totals_slot_iters_cons,
    totals_slots_cons, totals_ip_iters_cons]
  have h1 : tsi + (r.slot_iters + totals_slot_iters (rest.take (k + 1))) =
      tsi + r.slot_iters + totals_slot_iters (rest.take (k + 1)) := by omega
  have h2 : ts + (r.slots + totals_slots (rest.take (k + 1))) =
      ts + r.slots + totals_slots (rest.take (k + 1)) := by omega
  have h3 : tii + (r.ip_iters + totals_ip_iters (rest.take (k + 1))) =
      tii + r.ip_iters + totals_ip_iters (rest.take (k + 1)) := by omega
  have h4 : tb + (k + 1) + 1 = tb + 1 + k + 1 := by omega
  rw [h1, h2, h3, h4]

lemma validate_sub_epoch_loop_ne_none (threshold : Rat) :
    ∀ (results : List (Option SegmentTotals)) (tb tsi ts tii : Nat),
      0 < ts → 0 < tii →
      validate_sub_epoch_loop threshold results tb tsi ts tii ≠ none := by
  intro results
  induction results with
  | nil => intro tb tsi ts tii _ _; simp [validate_sub_epoch_loop]
  | cons r rest ih =>
    intro tb tsi ts tii hts htii
    cases r with
    | none => simp [validate_sub_epoch_loop]
    | some r =>
      rw [validate_sub_epoch_loop]
      rw [if_neg (by omega)]
      split
      · simp
      · exact ih (tb + 1) (tsi + r.slot_iters) (ts + r.slots) (tii + r.ip_iters)
          (by omega) (by omega)

lemma validate_sub_epoch_loop_true_iff (threshold : Rat) :
    ∀ (rs : List SegmentTotals) (tb tsi ts tii : Nat),
      (∀ k, k < rs.length → 0 < ts + totals_slots (rs.take (k + 1)) ∧
        0 < tii + totals_ip_iters (rs.take (k + 1))) →
      (validate_sub_epoch_loop threshold (rs.map some) tb tsi ts tii = some true ↔
        ∀ k, k < rs.length → threshold ≤ acc_ratio tb tsi ts tii rs k) := by
  intro rs
  induction rs with
  | nil =>
    intro tb tsi ts tii _
    simp [validate_sub_epoch_loop]
  | cons r rest ih =>
    intro tb tsi ts tii hpos
    have h0 : 0 < ts + r.slots ∧ 0 < tii + r.ip_iters := by
      have := hpos 0 (by simp)
      simp only [List.take_succ_cons, List.take_zero] at this
      simpa [totals_slots, totals_ip_iters] using this
    simp only [List.map_cons]
    rw [validate_sub_epoch_loop]
    rw [if_neg (by omega)]
    by_cases hlt : ((tsi + r.slot_iters : Nat) : Rat) /
        ((ts + r.slots : Nat) : Rat) /
        (((tii + r.ip_iters : Nat) : Rat) / ((tb + 1 : Nat) : Rat)) < threshold
    · rw [if_pos hlt]
      constructor
      · intro h; exact absurd h (by simp)
      · intro hall
        have := hall 0 (by simp)
        rw [acc_ratio_zero] at this
        exact absurd hlt (not_lt.mpr this)
    · rw [if_neg hlt]
      have hpos2 : ∀ k, k < rest.length →
          0 < (ts + r.slots) + totals_slots (rest.take (k + 1)) ∧
          0 < (tii + r.ip_iters) + totals_ip_iters (rest.take (k + 1)) := by
        intro k hk
        have := hpos (k + 1) (by simp only [List.length_cons]; omega)
        rw [List.take_succ_cons, totals_slots_cons, totals_ip_iters_cons] at this
        omega
      rw [ih (tb + 1) (tsi + r.slot_iters) (ts + r.slots) (tii + r.ip_iters) hpos2]
      constructor
      · intro hall k hk
        cases k with
        | zero =>
          rw [acc_ratio_zero]
          exact not_lt.mp hlt
        | succ k =>
          rw [acc_ratio_succ]
          exact hall k (by simp only [List.length_cons] at hk; omega)
      · intro hall k hk
        have := hall (k + 1) (by simp only [List.length_cons]; omega)
        rw [acc_ratio_succ] at this
        exact this

lemma validate_sub_epoch_ratio_checks_ne_none (threshold : Rat)
    (rs : List SegmentTotals)
    (hpos : ∀ k, k < rs.length → 0 < totals_slots (rs.take (k + 1)) ∧
      0 < totals_ip_iters (rs.take (k + 1))) :
    validate_sub_epoch_ratio_checks threshold (rs.map some) ≠ none := by
  cases rs with
  | nil => simp [validate_sub_epoch_ratio_checks, validate_sub_epoch_loop]
  | cons r rest =>
    have h0 : 0 < r.slots ∧ 0 < r.ip_iters := by
      have := hpos 0 (by simp)
      simp only [List.take_succ_cons, List.take_zero] at this
      simpa [totals_slots, totals_ip_iters] using this
    rw [validate_sub_epoch_ratio_checks]
    simp only [List.map_cons]
    rw [validate_sub_epoch_loop]
    rw [if_neg (by omega)]
    split
    · simp
    · exact validate_sub_epoch_loop_ne_none threshold (rest.map some) 1
        (0 + r.slot_iters) (0 + r.slots) (0 + r.ip_iters) (by omega) (by omega)

/-- C1: over the per-segment results of `_validate_segment`, the accumulation
loop of `validate_sub_epoch` computes after each segment (one challenge block
per segment) the averages `avg_slot_iters = total_slot_iters / total_slots`
and `avg_ip_iters = total_ip_iters / total_blocks` over the values accumulated
so far, fails (returns `False`) exactly when
`avg_slot_iters / avg_ip_iters < WEIGHT_PROOF_THRESHOLD` at some checkpoint,
and passes exactly when the ratio stays at or above the threshold at every
checkpoint (divisors being positive, cf. C10). -/
theorem validate_sub_epoch_ratio_threshold (threshold : Rat)
    (rs : List SegmentTotals)
    (hpos : ∀ k, k < rs.length → 0 < totals_slots (rs.take (k + 1)) ∧
      0 < totals_ip_iters (rs.take (k + 1))) :
    (validate_sub_epoch_ratio_checks threshold (rs.map some) = some false ↔
      ∃ k, k < rs.length ∧ checkpoint_ratio rs k < threshold) ∧
    (validate_sub_epoch_ratio_checks threshold (rs.map some) = some true ↔
      ∀ k, k < rs.length → threshold ≤ checkpoint_ratio rs k) := by
  have hacc : ∀ k, acc_ratio 0 0 0 0 rs k = checkpoint_ratio rs k := by
    intro k
    simp [acc_ratio, checkpoint_ratio]
  have htrue : validate_sub_epoch_ratio_checks threshold (rs.map some) = some true ↔
      ∀ k, k < rs.length → threshold ≤ checkpoint_ratio rs k := by
    rw [validate_sub_epoch_ratio_checks,
      validate_sub_epoch_loop_true_iff threshold rs 0 0 0 0 (by simpa using hpos)]
    constructor
    · intro h k hk
      have := h k hk
      rwa [hacc] at this
    · intro h k hk
      rw [hacc]
      exact h k hk
  have hnone := validate_sub_epoch_ratio_checks_ne_none threshold rs hpos
  refine ⟨?_, htrue⟩
  rcases hres : validate_sub_epoch_ratio_checks threshold (rs.map some) with _ | b
  · exact absurd hres hnone
  · cases b with
    | false =>
      have hna : ¬ ∀ k, k < rs.length → threshold ≤ checkpoint_ratio rs k := by
        intro hall
        have := htrue.mpr hall
        rw [hres] at this
        simp at this
      push_neg at hna
      obtain ⟨k, hk, hlt⟩ := hna
      exact iff_of_true rfl ⟨k, hk, hlt⟩
    | true =>
      have hall := htrue.mp hres
      constructor
      · intro h; simp at h
      · rintro ⟨k, hk, hlt⟩
        exact absurd (hall k hk) (not_le.mpr hlt)

/-- Witness for the C1 theorem: a single segment contributing ten slot
iterations over one slot and two ip iterations keeps the ratio `5` above a
threshold of `3`. -/
theorem validate_sub_epoch_ratio_threshold_witness :
    (validate_sub_epoch_ratio_checks 3 ([(⟨2, 10, 1⟩ : SegmentTotals)].map some) =
        some false ↔
      ∃ k, k < [(⟨2, 10, 1⟩ : SegmentTotals)].length ∧
        checkpoint_ratio [⟨2, 10, 1⟩] k < 3) ∧
    (validate_sub_epoch_ratio_checks 3 ([(⟨2, 10, 1⟩ : SegmentTotals)].map some) =
        some true ↔
      ∀ k, k < [(⟨2, 10, 1⟩ : SegmentTotals)].length →
        (3 : Rat) ≤ checkpoint_ratio [⟨2, 10, 1⟩] k) :=
  validate_sub_epoch_ratio_threshold 3 [⟨2, 10, 1⟩] (by decide)

/-- C10: in the accumulation loop of `validate_sub_epoch` the divisor
`total_blocks` is always at least 1 (it is incremented unconditionally once
per segment), while `total_slots` only grows by the slots each segment
contributes; given that the first segment validates successfully (with the
positive `ip_iters` its challenge block asserts), the unguarded division
`avg_slot_iters = total_slot_iters / total_slots` avoids a
`ZeroDivisionError` if and only if that first segment contributed at least
one end-of-slot record. -/
theorem validate_sub_epoch_division_guard (threshold : Rat)
    (results : List (Option SegmentTotals)) (r0 : SegmentTotals)
    (hhead : results.head? = some (some r0)) (hip : 0 < r0.ip_iters) :
    (validate_sub_epoch_ratio_checks threshold results ≠ none ↔ 0 < r0.slots) := by
  cases results with
  | nil => simp at hhead
  | cons r rest =>
    have hr : r = some r0 := by simpa using hhead
    subst hr
    rw [validate_sub_epoch_ratio_checks, validate_sub_epoch_loop]
    by_cases hs : r0.slots = 0
    · rw [if_pos (by omega)]
      constructor
      · intro h; exact absurd rfl h
      · intro h; omega
    · rw [if_neg (by omega)]
      have hne : (if ((0 + r0.slot_iters : Nat) : Rat) / ((0 + r0.slots : Nat) : Rat) /
            (((0 + r0.ip_iters : Nat) : Rat) / ((0 + 1 : Nat) : Rat)) < threshold
          then some false
          else validate_sub_epoch_loop threshold rest (0 + 1) (0 + r0.slot_iters)
            (0 + r0.slots) (0 + r0.ip_iters)) ≠ none := by
        split
        · simp
        · exact validate_sub_epoch_loop_ne_none threshold rest (0 + 1)
            (0 + r0.slot_iters) (0 + r0.slots) (0 + r0.ip_iters) (by omega) (by omega)
      constructor
      · intro _; omega
      · intro _; exact hne

/-- Witness for the C10 theorem: a first segment with two end-of-slot records
never divides by zero. -/
theorem validate_sub_epoch_division_guard_witness :
    validate_sub_epoch_ratio_checks 3 [some (⟨5, 100, 2⟩ : SegmentTotals)] ≠ none ↔
      0 < (⟨5, 100, 2⟩ : SegmentTotals).slots :=
  validate_sub_epoch_division_guard 3 [some ⟨5, 100, 2⟩] ⟨5, 100, 2⟩
    (by decide) (by decide)

/-- Modelled from the spec: `_sample_sub_epoch` of `weight_proof_common` (not
under `src/`): a sub-epoch `[w_prev, w_cur)` is sampled iff some sampled
weight `w` satisfies `w_prev ≤ w < w_cur`. -/
def sample_sub_epoch (start_of_epoch_weight end_of_epoch_weight : Nat)
    (weight_to_check : List Nat) : Bool :=
  weight_to_check.any (fun w =>
    decide (start_of_epoch_weight ≤ w ∧ w < end_of_epoch_weight))

/-- Loop of `validate_sub_epoch_sampling` over `range(1, len(weight_list))`
(weight_proof_v2.py lines 1609-1614): collect `idx - 1` for each sampled
sub-epoch, stopping once `MAX_SAMPLES` indices have been collected.  The
`range` is passed as a list so the recursion is structural. -/
def collect_sampled_go (sub_epoch_weight_list weight_to_check : List Nat) :
    List Nat → List Nat → List Nat
  | [], sampled_sub_epochs => sampled_sub_epochs
  | idx :: rest, sampled_sub_epochs =>
    if sample_sub_epoch ((sub_epoch_weight_list.get? (idx - 1)).getD 0)
        ((sub_epoch_weight_list.get? idx).getD 0) weight_to_check then
      if (sampled_sub_epochs ++ [idx - 1]).length = MAX_SAMPLES then
        sampled_sub_epochs ++ [idx - 1]
      else
        collect_sampled_go sub_epoch_weight_list weight_to_check rest
          (sampled_sub_epochs ++ [idx - 1])
    else collect_sampled_go sub_epoch_weight_list weight_to_check rest
      sampled_sub_epochs

/-- The sampled sub-epoch indices required by `validate_sub_epoch_sampling`:
the loop above over indices `1 .. len(weight_list) - 1`. -/
def collect_sampled (sub_epoch_weight_list weight_to_check : List Nat) : List Nat :=
  collect_sampled_go sub_epoch_weight_list weight_to_check
    (List.range' 1 (sub_epoch_weight_list.length - 1)) []

/-- Walk of `validate_sub_epoch_sampling` over the proof's segments
(weight_proof_v2.py lines 1615-1620): whenever the segment's `sub_epoch_n`
strictly exceeds the previous one, delete it from the collected dictionary
(modelled by filtering the key list). -/
def sampling_walk :
    List SubEpochChallengeSegmentV2 → Int → List Nat → List Nat
  | [], _, sampled_sub_epochs => sampled_sub_epochs
  | seg :: rest, curr_sub_epoch_n, sampled_sub_epochs =>
    let sampled2 :=
      if curr_sub_epoch_n < (seg.sub_epoch_n : Int) then
        sampled_sub_epochs.filter (fun x => decide (x ≠ seg.sub_epoch_n))
      else sampled_sub_epochs
    sampling_walk rest (seg.sub_epoch_n : Int) sampled2

/-- `validate_sub_epoch_sampling` (weight_proof_v2.py lines 1601-1623).  The
sampling oracle `_get_weights_for_sampling` (together with the PRNG threaded
into it) is abstracted as the `oracle` parameter; it receives the total weight
`weight_list[-1]` and `last_l_weight = weight_list[-1] - weight_list[-3]` as
computed at lines 1602-1603.  `none` models the `IndexError` raised by
`weight_list[-3]` when the list has fewer than three entries. -/
def validate_sub_epoch_sampling (oracle : Nat → Int → Option (List Nat))
    (sub_epoch_weight_list : List Nat) (weight_proof : WeightProofV2) :
    Option Bool :=
  if 3 ≤ sub_epoch_weight_list.length then
    match oracle
        ((sub_epoch_weight_list.get? (sub_epoch_weight_list.length - 1)).getD 0)
        (((sub_epoch_weight_list.get? (sub_epoch_weight_list.length - 1)).getD 0 : Int) -
          ((sub_epoch_weight_list.get? (sub_epoch_weight_list.length - 3)).getD 0 : Int)) with
    | none => some false
    | some weight_to_check =>
      some ((sampling_walk weight_proof.sub_epoch_segments (-1)
        (collect_sampled sub_epoch_weight_list weight_to_check)).isEmpty)
  else none

/-- Loop of `map_segments_by_sub_epoch` (weight_proof_v2.py lines 1626-1636):
group consecutive segments, opening a new group keyed `sub_epoch_n` whenever
it strictly exceeds the current key, otherwise appending to the most recently
opened group.  The dictionary is modelled as an association list in insertion
order; the impossible `KeyError` case (no group opened yet) leaves the
accumulator unchanged. -/
def map_segments_by_sub_epoch_go :
    List SubEpochChallengeSegmentV2 → Int →
      List (Nat × List SubEpochChallengeSegmentV2) →
      List (Nat × List SubEpochChallengeSegmentV2)
  | [], _, segments => segments
  | seg :: rest, curr_sub_epoch_n, segments =>
    if curr_sub_epoch_n < (seg.sub_epoch_n : Int) then
      map_segments_by_sub_epoch_go rest (seg.sub_epoch_n : Int)
        (segments ++ [(seg.sub_epoch_n, [seg])])
    else
      match segments.getLast? with
      | none => map_segments_by_sub_epoch_go rest curr_sub_epoch_n segments
      | some last =>
        map_segments_by_sub_epoch_go rest curr_sub_epoch_n
          (segments.dropLast ++ [(last.1, last.2 ++ [seg])])

/-- `map_segments_by_sub_epoch` (weight_proof_v2.py lines 1626-1636). -/
def map_segments_by_sub_epoch (sub_epoch_segments : List SubEpochChallengeSegmentV2) :
    List (Nat × List SubEpochChallengeSegmentV2) :=
  map_segments_by_sub_epoch_go sub_epoch_segments (-1) []

lemma sampling_walk_mem :
    ∀ (segs : List SubEpochChallengeSegmentV2) (curr : Int) (s : List Nat) (x : Nat),
      (segs.map (fun g => g.sub_epoch_n)).Sorted (· ≤ ·) →
      (∀ g ∈ segs, curr ≤ (g.sub_epoch_n : Int)) →
      (x ∈ sampling_walk segs curr s ↔
        x ∈ s ∧ ¬(curr < (x : Int) ∧ x ∈ segs.map (fun g => g.sub_epoch_n))) := by
  intro segs
  induction segs with
  | nil =>
    intro curr s x _ _
    simp [sampling_walk]
  | cons seg rest ih =>
    intro curr s x hsorted hlb
    have hsorted2 : (rest.map (fun g => g.sub_epoch_n)).Sorted (· ≤ ·) := by
      rw [List.map_cons, List.sorted_cons] at hsorted
      exact hsorted.2
    have hrest_ge : ∀ g ∈ rest, seg.sub_epoch_n ≤ g.sub_epoch_n := by
      rw [List.map_cons, List.sorted_cons] at hsorted
      intro g hg
      exact hsorted.1 _ (List.mem_map_of_mem _ hg)
    rw [sampling_walk]
    by_cases hc : curr < (seg.sub_epoch_n : Int)
    · rw [if_pos hc]
      rw [ih (seg.sub_epoch_n : Int) _ x hsorted2
        (fun g hg => by exact_mod_cast hrest_ge g hg)]
      simp only [List.mem_filter, decide_eq_true_eq, List.map_cons, List.mem_cons]
      constructor
      · rintro ⟨⟨hxs, hxn⟩, hno⟩
        refine ⟨hxs, ?_⟩
        rintro ⟨hcx, hx⟩
        rcases hx with hx | hx
        · exact hxn hx
        · refine hno ⟨?_, hx⟩
          obtain ⟨g, hg, hgx⟩ := List.mem_map.mp hx
          have h1 : seg.sub_epoch_n ≤ x := hgx ▸ hrest_ge g hg
          have h2 : seg.sub_epoch_n ≠ x := fun he => hxn he.symm
          omega
      · rintro ⟨hxs, hno⟩
        have hxn : x ≠ seg.sub_epoch_n := by
          rintro rfl
          exact hno ⟨hc, Or.inl rfl⟩
        refine ⟨⟨hxs, hxn⟩, ?_⟩
        rintro ⟨hnx, hx⟩
        refine hno ⟨?_, Or.inr hx⟩
        omega
    · rw [if_neg hc]
      have heq : curr = (seg.sub_epoch_n : Int) :=
        le_antisymm (hlb seg (List.mem_cons_self _ _)) (not_lt.mp hc)
      subst heq
      rw [ih (seg.sub_epoch_n : Int) s x hsorted2
        (fun g hg => by exact_mod_cast hrest_ge g hg)]
      simp only [List.map_cons, List.mem_cons]
      constructor
      · rintro ⟨hxs, hno⟩
        refine ⟨hxs, ?_⟩
        rintro ⟨hcx, hx⟩
        rcases hx with hx | hx
        · subst hx; omega
        · exact hno ⟨hcx, hx⟩
      · rintro ⟨hxs, hno⟩
        refine ⟨hxs, ?_⟩
        rintro ⟨hcx, hx⟩
        exact hno ⟨hcx, Or.inr hx⟩

lemma keys_mem_of_modified (acc : List (Nat × List SubEpochChallengeSegmentV2))
    (last : Nat × List SubEpochChallengeSegmentV2)
    (h : acc.getLast? = some last) (l2 : List SubEpochChallengeSegmentV2) (x : Nat) :
    (x ∈ (acc.dropLast ++ [(last.1, l2)]).map Prod.fst ↔ x ∈ acc.map Prod.fst) := by
  conv_rhs => rw [← List.dropLast_append_getLast? last h]
  simp

lemma map_segments_by_sub_epoch_go_keys :
    ∀ (segs : List SubEpochChallengeSegmentV2) (curr : Int)
      (acc : List (Nat × List SubEpochChallengeSegmentV2)) (x : Nat),
      (segs.map (fun g => g.sub_epoch_n)).Sorted (· ≤ ·) →
      (∀ g ∈ segs, curr ≤ (g.sub_epoch_n : Int)) →
      (x ∈ (map_segments_by_sub_epoch_go segs curr acc).map Prod.fst ↔
        x ∈ acc.map Prod.fst ∨
          (curr < (x : Int) ∧ x ∈ segs.map (fun g => g.sub_epoch_n))) := by
  intro segs
  induction segs with
  | nil =>
    intro curr acc x _ _
    simp [map_segments_by_sub_epoch_go]
  | cons seg rest ih =>
    intro curr acc x hsorted hlb
    have hsorted2 : (rest.map (fun g => g.sub_epoch_n)).Sorted (· ≤ ·) := by
      rw [List.map_cons, List.sorted_cons] at hsorted
      exact hsorted.2
    have hrest_ge : ∀ g ∈ rest, seg.sub_epoch_n ≤ g.sub_epoch_n := by
      rw [List.map_cons, List.sorted_cons] at hsorted
      intro g hg
      exact hsorted.1 _ (List.mem_map_of_mem _ hg)
    have hlb2 : ∀ g ∈ rest, (seg.sub_epoch_n : Int) ≤ (g.sub_epoch_n : Int) :=
      fun g hg => by exact_mod_cast hrest_ge g hg
    rw [map_segments_by_sub_epoch_go]
    by_cases hc : curr < (seg.sub_epoch_n : Int)
    · rw [if_pos hc]
      rw [ih (seg.sub_epoch_n : Int) (acc ++ [(seg.sub_epoch_n, [seg])]) x hsorted2 hlb2]
      simp only [List.map_append, List.map_cons, List.mem_append, List.mem_cons,
        List.map_nil, List.mem_singleton, List.not_mem_nil, or_false]
      constructor
      · rintro (⟨ha | hn⟩ | ⟨hnx, hx⟩)
        · exact Or.inl ha
        · refine Or.inr ⟨?_, Or.inl hn⟩
          subst hn
          exact hc
        · refine Or.inr ⟨by omega, Or.inr hx⟩
      · rintro (ha | ⟨hcx, hx | hx⟩)
        · exact Or.inl (Or.inl ha)
        · exact Or.inl (Or.inr hx)
        · obtain ⟨g, hg, hgx⟩ := List.mem_map.mp hx
          by_cases hxn : x = seg.sub_epoch_n
          · exact Or.inl (Or.inr hxn)
          · refine Or.inr ⟨?_, hx⟩
            have h1 : seg.sub_epoch_n ≤ x := hgx ▸ hrest_ge g hg
            omega
    · rw [if_neg hc]
      have heq : curr = (seg.sub_epoch_n : Int) :=
        le_antisymm (hlb seg (List.mem_cons_self _ _)) (not_lt.mp hc)
      have hlb3 : ∀ g ∈ rest, curr ≤ (g.sub_epoch_n : Int) := fun g hg =>
        heq ▸ hlb2 g hg
      have htail : ∀ acc2 : List (Nat × List SubEpochChallengeSegmentV2),
          (x ∈ (map_segments_by_sub_epoch_go rest curr acc2).map Prod.fst ↔
            x ∈ acc2.map Prod.fst ∨
              (curr < (x : Int) ∧ x ∈ rest.map (fun g => g.sub_epoch_n))) :=
        fun acc2 => ih curr acc2 x hsorted2 hlb3
      have hgoal : ∀ acc2 : List (Nat × List SubEpochChallengeSegmentV2),
          (x ∈ acc2.map Prod.fst ↔ x ∈ acc.map Prod.fst) →
          (x ∈ (map_segments_by_sub_epoch_go rest curr acc2).map Prod.fst ↔
            x ∈ acc.map Prod.fst ∨
              (curr < (x : Int) ∧
                x ∈ (seg :: rest).map (fun g => g.sub_epoch_n))) := by
        intro acc2 hsame
        rw [htail acc2, hsame]
        simp only [List.map_cons, List.mem_cons]
        constructor
        · rintro (ha | ⟨hcx, hx⟩)
          · exact Or.inl ha
          · exact Or.inr ⟨hcx, Or.inr hx⟩
        · rintro (ha | ⟨hcx, hx | hx⟩)
          · exact Or.inl ha
          · subst hx; omega
          · exact Or.inr ⟨hcx, hx⟩
      cases hl : acc.getLast? with
      | none => exact hgoal acc Iff.rfl
      | some last => exact hgoal _ (keys_mem_of_modified acc last hl [last.2 ++ [seg]].head! x)

lemma collect_sampled_go_spec (sub_epoch_weight_list weight_to_check : List Nat) :
    ∀ (l acc : List Nat), acc.length < MAX_SAMPLES →
      collect_sampled_go sub_epoch_weight_list weight_to_check l acc =
        (acc ++ (l.filter (fun idx =>
            sample_sub_epoch ((sub_epoch_weight_list.get? (idx - 1)).getD 0)
              ((sub_epoch_weight_list.get? idx).getD 0) weight_to_check)).map
          (fun idx => idx - 1)).take MAX_SAMPLES := by
  intro l
  induction l with
  | nil =>
    intro acc hacc
    rw [collect_sampled_go]
    simp only [List.filter_nil, List.map_nil, List.append_nil]
    exact (List.take_of_length_le (Nat.le_of_lt hacc)).symm
  | cons idx rest ih =>
    intro acc hacc
    rw [collect_sampled_go]
    cases hs : sample_sub_epoch ((sub_epoch_weight_list.get? (idx - 1)).getD 0)
        ((sub_epoch_weight_list.get? idx).getD 0) weight_to_check with
    | true =>
      have hfilter : (idx :: rest).filter (fun idx =>
          sample_sub_epoch ((sub_epoch_weight_list.get? (idx - 1)).getD 0)
            ((sub_epoch_weight_list.get? idx).getD 0) weight_to_check) =
          idx :: rest.filter (fun idx =>
            sample_sub_epoch ((sub_epoch_weight_list.get? (idx - 1)).getD 0)
              ((sub_epoch_weight_list.get? idx).getD 0) weight_to_check) := by
        rw [List.filter_cons, if_pos hs]
      rw [if_pos rfl, hfilter, List.map_cons]
      by_cases hfull : (acc ++ [idx - 1]).length = MAX_SAMPLES
      · rw [if_pos hfull]
        have hassoc : acc ++ (idx - 1) :: (rest.filter (fun idx =>
            sample_sub_epoch ((sub_epoch_weight_list.get? (idx - 1)).getD 0)
              ((sub_epoch_weight_list.get? idx).getD 0) weight_to_check)).map
            (fun idx => idx - 1) =
          (acc ++ [idx - 1]) ++ (rest.filter (fun idx =>
            sample_sub_epoch ((sub_epoch_weight_list.get? (idx - 1)).getD 0)
              ((sub_epoch_weight_list.get? idx).getD 0) weight_to_check)).map
            (fun idx => idx - 1) := by
          simp
        rw [hassoc, List.take_left' hfull]
      · rw [if_neg hfull]
        have hlt : (acc ++ [idx - 1]).length < MAX_SAMPLES := by
          rw [List.length_append, List.length_singleton]
          rw [List.length_append, List.length_singleton] at hfull
          omega
        rw [ih (acc ++ [idx - 1]) hlt]
        congr 1
        simp
    | false =>
      have hs2 : sample_sub_epoch (sub_epoch_weight_list[idx - 1]?.getD 0)
          (sub_epoch_weight_list[idx]?.getD 0) weight_to_check = false := by
        simpa using hs
      have hfilter : (idx :: rest).filter (fun idx =>
          sample_sub_epoch ((sub_epoch_weight_list.get? (idx - 1)).getD 0)
            ((sub_epoch_weight_list.get? idx).getD 0) weight_to_check) =
          rest.filter (fun idx =>
            sample_sub_epoch ((sub_epoch_weight_list.get? (idx - 1)).getD 0)
              ((sub_epoch_weight_list.get? idx).getD 0) weight_to_check) := by
        rw [List.filter_cons, if_neg (by simp [hs2])]
      rw [if_neg (by simp), hfilter]
      exact ih acc hacc

/-- C3 counterexample: with segments ordered `5, 3, 4` and the oracle
requiring exactly sub-epoch 4, the removal walk of
`validate_sub_epoch_sampling` deletes index 4 (because `3 < 4` at that step)
and the function returns `True`, even though sub-epoch 4 has no segment group
under `map_segments_by_sub_epoch` (whose keys are `[5]`). -/
theorem validate_sub_epoch_sampling_counterexample :
    validate_sub_epoch_sampling (fun _ _ => some [45]) [0, 10, 20, 30, 40, 50, 60]
        ⟨[], [⟨5, [], none, none, none, none⟩, ⟨3, [], none, none, none, none⟩,
          ⟨4, [], none, none, none, none⟩], []⟩ = some true ∧
    4 ∈ collect_sampled [0, 10, 20, 30, 40, 50, 60] [45] ∧
    4 ∉ (map_segments_by_sub_epoch [⟨5, [], none, none, none, none⟩,
        ⟨3, [], none, none, none, none⟩, ⟨4, [], none, none, none, none⟩]).map
      Prod.fst := by
  refine ⟨?_, ?_, ?_⟩ <;> decide

/-- C3 (amended): provided the proof's segments are ordered by non-decreasing
`sub_epoch_n`, `validate_sub_epoch_sampling` re-runs the oracle on the weight
list (total weight `weight_list[-1]`, last-L weight
`weight_list[-1] - weight_list[-3]`), takes as required the sampled sub-epoch
indices truncated at `MAX_SAMPLES = 140`, and returns `False` if and only if
the oracle fails or some required index has no segment group (no key of
`map_segments_by_sub_epoch`); segment groups for non-required indices never
cause rejection. -/
theorem validate_sub_epoch_sampling_required_groups
    (oracle : Nat → Int → Option (List Nat)) (sub_epoch_weight_list : List Nat)
    (weight_proof : WeightProofV2)
    (h3 : 3 ≤ sub_epoch_weight_list.length)
    (hsorted : (weight_proof.sub_epoch_segments.map
      (fun g => g.sub_epoch_n)).Sorted (· ≤ ·)) :
    (validate_sub_epoch_sampling oracle sub_epoch_weight_list weight_proof =
        some false ↔
      (oracle ((sub_epoch_weight_list.get? (sub_epoch_weight_list.length - 1)).getD 0)
          (((sub_epoch_weight_list.get?
            (sub_epoch_weight_list.length - 1)).getD 0 : Int) -
            ((sub_epoch_weight_list.get?
              (sub_epoch_weight_list.length - 3)).getD 0 : Int)) = none ∨
        ∃ weight_to_check,
          oracle ((sub_epoch_weight_list.get?
              (sub_epoch_weight_list.length - 1)).getD 0)
            (((sub_epoch_weight_list.get?
              (sub_epoch_weight_list.length - 1)).getD 0 : Int) -
              ((sub_epoch_weight_list.get?
                (sub_epoch_weight_list.length - 3)).getD 0 : Int)) =
            some weight_to_check ∧
          ∃ i, i ∈ collect_sampled sub_epoch_weight_list weight_to_check ∧
            i ∉ (map_segments_by_sub_epoch
              weight_proof.sub_epoch_segments).map Prod.fst)) ∧
    (∀ weight_to_check : List Nat,
      collect_sampled sub_epoch_weight_list weight_to_check =
        (((List.range' 1 (sub_epoch_weight_list.length - 1)).filter (fun idx =>
            sample_sub_epoch ((sub_epoch_weight_list.get? (idx - 1)).getD 0)
              ((sub_epoch_weight_list.get? idx).getD 0) weight_to_check)).map
          (fun idx => idx - 1)).take MAX_SAMPLES) := by
  have hlb : ∀ g ∈ weight_proof.sub_epoch_segments, (-1 : Int) ≤ (g.sub_epoch_n : Int) := by
    intro g _
    omega
  constructor
  · rw [validate_sub_epoch_sampling, if_pos h3]
    cases horacle : oracle
        ((sub_epoch_weight_list.get? (sub_epoch_weight_list.length - 1)).getD 0)
        (((sub_epoch_weight_list.get?
          (sub_epoch_weight_list.length - 1)).getD 0 : Int) -
          ((sub_epoch_weight_list.get?
            (sub_epoch_weight_list.length - 3)).getD 0 : Int)) with
    | none => exact iff_of_true rfl (Or.inl rfl)
    | some weight_to_check =>
      have hmem : ∀ i : Nat,
          i ∈ sampling_walk weight_proof.sub_epoch_segments (-1)
            (collect_sampled sub_epoch_weight_list weight_to_check) ↔
          i ∈ collect_sampled sub_epoch_weight_list weight_to_check ∧
            i ∉ weight_proof.sub_epoch_segments.map (fun g => g.sub_epoch_n) := by
        intro i
        rw [sampling_walk_mem weight_proof.sub_epoch_segments (-1) _ i hsorted hlb]
        have hneg : (-1 : Int) < (i : Int) := by omega
        simp [hneg]
      have hkeys : ∀ i : Nat,
          i ∈ (map_segments_by_sub_epoch weight_proof.sub_epoch_segments).map
              Prod.fst ↔
            i ∈ weight_proof.sub_epoch_segments.map (fun g => g.sub_epoch_n) := by
        intro i
        rw [map_segments_by_sub_epoch,
          map_segments_by_sub_epoch_go_keys weight_proof.sub_epoch_segments (-1) []
            i hsorted hlb]
        have hneg : (-1 : Int) < (i : Int) := by omega
        simp [hneg]
      simp only [Option.some.injEq]
      constructor
      · intro hfalse
        refine Or.inr ⟨weight_to_check, rfl, ?_⟩
        have hne : sampling_walk weight_proof.sub_epoch_segments (-1)
            (collect_sampled sub_epoch_weight_list weight_to_check) ≠ [] := by
          intro he
          rw [he] at hfalse
          simp at hfalse
        obtain ⟨i, hi⟩ := List.exists_mem_of_ne_nil _ hne
        obtain ⟨hisamp, hival⟩ := (hmem i).mp hi
        exact ⟨i, hisamp, fun hk => hival ((hkeys i).mp hk)⟩
      · rintro (hnone | ⟨wtc2, hwtc2, i, hisamp, hikeys⟩)
        · simp at hnone
        · subst hwtc2
          have hival : i ∉ weight_proof.sub_epoch_segments.map
              (fun g => g.sub_epoch_n) := fun hv => hikeys ((hkeys i).mpr hv)
          have hiwalk := (hmem i).mpr ⟨hisamp, hival⟩
          cases hwalk : sampling_walk weight_proof.sub_epoch_segments (-1)
              (collect_sampled sub_epoch_weight_list weight_to_check) with
          | nil => rw [hwalk] at hiwalk; simp at hiwalk
          | cons a l => rfl
  · intro weight_to_check
    rw [collect_sampled,
      collect_sampled_go_spec sub_epoch_weight_list weight_to_check
        (List.range' 1 (sub_epoch_weight_list.length - 1)) [] (by decide)]
    simp

/-- Witness for the amended C3 theorem: one segment for the single required
sub-epoch 0 makes validation pass; the iff and the truncation identity hold
at this concrete input. -/
theorem validate_sub_epoch_sampling_required_groups_witness :
    ((validate_sub_epoch_sampling (fun _ _ => some [5]) [0, 10, 20]
        ⟨[], [⟨0, [], none, none, none, none⟩], []⟩ = some false ↔
      ((fun (_ : Nat) (_ : Int) => some [5])
          ((([0, 10, 20] : List Nat).get? (3 - 1)).getD 0)
          (((([0, 10, 20] : List Nat).get? (3 - 1)).getD 0 : Int) -
            ((([0, 10, 20] : List Nat).get? (3 - 3)).getD 0 : Int)) = none ∨
        ∃ weight_to_check,
          (fun (_ : Nat) (_ : Int) => some [5])
              ((([0, 10, 20] : List Nat).get? (3 - 1)).getD 0)
              (((([0, 10, 20] : List Nat).get? (3 - 1)).getD 0 : Int) -
                ((([0, 10, 20] : List Nat).get? (3 - 3)).getD 0 : Int)) =
            some weight_to_check ∧
          ∃ i, i ∈ collect_sampled [0, 10, 20] weight_to_check ∧
            i ∉ (map_segments_by_sub_epoch
              [⟨0, [], none, none, none, none⟩]).map Prod.fst))) ∧
    (∀ weight_to_check : List Nat,
      collect_sampled [0, 10, 20] weight_to_check =
        (((List.range' 1 (3 - 1)).filter (fun idx =>
            sample_sub_epoch ((([0, 10, 20] : List Nat).get? (idx - 1)).getD 0)
              ((([0, 10, 20] : List Nat).get? idx).getD 0) weight_to_check)).map
          (fun idx => idx - 1)).take MAX_SAMPLES) :=
  validate_sub_epoch_sampling_required_groups (fun _ _ => some [5]) [0, 10, 20]
    ⟨[], [⟨0, [], none, none, none, none⟩], []⟩ (by decide) (by decide)

/-- Constant `C = 0.5` of `WeightProofHandlerV2`. -/
noncomputable def C : Real := 0.5

/-- Constant `LAMBDA_L = 100` of `WeightProofHandlerV2`. -/
noncomputable def LAMBDA_L : Real := 100

/-- `prob_of_adv_succeeding = 1 - math.log(C, delta)` (weight_proof_v2.py
line 562), where Python `math.log(x, b) = ln x / ln b`; IEEE-754 floats are
modelled as reals. -/
noncomputable def prob_of_adv_succeeding (delta : Real) : Real :=
  1 - Real.log C / Real.log delta

/-- `queries = -LAMBDA_L * math.log(2, prob_of_adv_succeeding)`
(weight_proof_v2.py line 565). -/
noncomputable def queries_for (p : Real) : Real :=
  -LAMBDA_L * (Real.log 2 / Real.log p)

/-- Python `int()` truncation toward zero on a real value, as applied by
`int(queries)` and by the `uint128` conversion. -/
noncomputable def python_int (x : Real) : Int :=
  if 0 ≤ x then ⌊x⌋ else ⌈x⌉

/-- `_get_weights_for_sampling` (weight_proof_v2.py lines 559-573).  Floats
are modelled as reals, the PRNG draws `rng.random()` as the stream `us` of
values in `[0, 1)`, and the `uint128` conversion as integer truncation.
Returns `None` when `prob_of_adv_succeeding ≤ 0`; otherwise draws
`int(queries) + 1` samples, emits `(1 - delta ** u) * total_weight` for each,
and sorts ascending. -/
noncomputable def get_weights_for_sampling (us : Nat → Real)
    (total_weight last_l_weight : Real) : Option (List Int) :=
  if prob_of_adv_succeeding (last_l_weight / total_weight) ≤ 0 then none
  else
    some (((List.range
        (python_int (queries_for
          (prob_of_adv_succeeding (last_l_weight / total_weight))) + 1).toNat).map
      (fun i => python_int
        ((1 - (last_l_weight / total_weight) ^ (us i)) * total_weight))).mergeSort)

/-- C2 counterexample: at `total_weight = 1`, `last_l_weight = 2` (so
`delta = 2`), the probability is `2 > 0` and `queries = -100`, so the oracle
returns the empty list — not a list of `floor(queries) + 1 = -99` values as
the claim demands for every input. -/
theorem get_weights_for_sampling_counterexample :
    get_weights_for_sampling (fun _ => 0) 1 2 = some [] ∧
    ⌊queries_for (prob_of_adv_succeeding (2 / 1))⌋ + 1 = (-99 : Int) ∧
    ¬ ((([] : List Int).length : Int) =
      ⌊queries_for (prob_of_adv_succeeding (2 / 1))⌋ + 1) := by
  have hlog2pos : 0 < Real.log 2 := Real.log_pos one_lt_two
  have hlogC : Real.log C = -Real.log 2 := by
    rw [C, show (0.5 : Real) = 2⁻¹ by norm_num, Real.log_inv]
  have h21 : (2 : Real) / 1 = 2 := by norm_num
  have hp : prob_of_adv_succeeding ((2 : Real) / 1) = 2 := by
    rw [prob_of_adv_succeeding, hlogC, h21, neg_div,
      div_self (ne_of_gt hlog2pos)]
    norm_num
  have hq : queries_for (prob_of_adv_succeeding ((2 : Real) / 1)) = -100 := by
    rw [hp, queries_for, LAMBDA_L, div_self (ne_of_gt hlog2pos)]
    norm_num
  have hqfloor : ⌊queries_for (prob_of_adv_succeeding ((2 : Real) / 1))⌋ = -100 := by
    rw [hq, show ((-100 : Real)) = ((-100 : Int) : Real) by norm_num, Int.floor_intCast]
  have hqint : python_int (queries_for (prob_of_adv_succeeding ((2 : Real) / 1))) =
      -100 := by
    rw [hq, python_int, if_neg (by norm_num),
      show ((-100 : Real)) = ((-100 : Int) : Real) by norm_num, Int.ceil_intCast]
  refine ⟨?_, ?_, ?_⟩
  · rw [get_weights_for_sampling, if_neg (by rw [hp]; norm_num), hqint]
    norm_num
    rw [show ((-99 : Int)).toNat = 0 by decide]
    simp
  · rw [hqfloor]
    norm_num
  · rw [hqfloor]
    norm_num

/-- C2 (amended): provided `0 < last_l_weight < total_weight`, and the PRNG
draws lying in `[0, 1)`, the sampling oracle `_get_weights_for_sampling`
returns `None` exactly when the adversary-success probability `p` is at most
0, and otherwise returns a list of exactly `floor(queries) + 1` values
`(1 - delta^u) * total_weight` truncated to integers, sorted ascending. -/
theorem get_weights_for_sampling_spec (us : Nat → Real)
    (total_weight last_l_weight : Real)
    (hpos : 0 < last_l_weight) (hlt : last_l_weight < total_weight)
    (hus : ∀ i, us i ∈ Set.Ico (0 : Real) 1) :
    (get_weights_for_sampling us total_weight last_l_weight = none ↔
      prob_of_adv_succeeding (last_l_weight / total_weight) ≤ 0) ∧
    (0 < prob_of_adv_succeeding (last_l_weight / total_weight) →
      ∃ l : List Int,
        get_weights_for_sampling us total_weight last_l_weight = some l ∧
        (l.length : Int) =
          ⌊queries_for (prob_of_adv_succeeding (last_l_weight / total_weight))⌋ + 1 ∧
        l.Sorted (· ≤ ·) ∧
        l.Perm ((List.range
            (⌊queries_for
              (prob_of_adv_succeeding (last_l_weight / total_weight))⌋ + 1).toNat).map
          (fun i =>
            ⌊(1 - (last_l_weight / total_weight) ^ (us i)) * total_weight⌋))) := by
  have htot : 0 < total_weight := lt_trans hpos hlt
  have hdpos : 0 < last_l_weight / total_weight := div_pos hpos htot
  have hdlt : last_l_weight / total_weight < 1 := (div_lt_one htot).mpr hlt
  constructor
  · rw [get_weights_for_sampling]
    by_cases h : prob_of_adv_succeeding (last_l_weight / total_weight) ≤ 0
    · rw [if_pos h]
      simp [h]
    · rw [if_neg h]
      simp [h]
  · intro hp
    have hcond : ¬ prob_of_adv_succeeding (last_l_weight / total_weight) ≤ 0 :=
      not_le.mpr hp
    have hlogd : Real.log (last_l_weight / total_weight) < 0 :=
      Real.log_neg hdpos hdlt
    have hlogC : Real.log C < 0 := by
      rw [C]
      exact Real.log_neg (by norm_num) (by norm_num)
    have hplt1 : prob_of_adv_succeeding (last_l_weight / total_weight) < 1 := by
      rw [prob_of_adv_succeeding]
      have hratio : 0 < Real.log C / Real.log (last_l_weight / total_weight) :=
        div_pos_of_neg_of_neg hlogC hlogd
      linarith
    have hlogp : Real.log (prob_of_adv_succeeding (last_l_weight / total_weight)) < 0 :=
      Real.log_neg hp hplt1
    have hqpos : 0 < queries_for
        (prob_of_adv_succeeding (last_l_weight / total_weight)) := by
      rw [queries_for, LAMBDA_L]
      have hdivneg : Real.log 2 /
          Real.log (prob_of_adv_succeeding (last_l_weight / total_weight)) < 0 :=
        div_neg_of_pos_of_neg (Real.log_pos one_lt_two) hlogp
      nlinarith
    have hq_int : python_int (queries_for
        (prob_of_adv_succeeding (last_l_weight / total_weight))) =
        ⌊queries_for (prob_of_adv_succeeding (last_l_weight / total_weight))⌋ := by
      rw [python_int, if_pos (le_of_lt hqpos)]
    have hfloor_nonneg : 0 ≤ ⌊queries_for
        (prob_of_adv_succeeding (last_l_weight / total_weight))⌋ :=
      Int.floor_nonneg.mpr (le_of_lt hqpos)
    have hval : (fun i => python_int
        ((1 - (last_l_weight / total_weight) ^ (us i)) * total_weight)) =
        (fun i =>
          ⌊(1 - (last_l_weight / total_weight) ^ (us i)) * total_weight⌋) := by
      funext i
      rw [python_int, if_pos]
      have hu := hus i
      have hle1 : (last_l_weight / total_weight) ^ (us i) ≤ 1 :=
        Real.rpow_le_one (le_of_lt hdpos) (le_of_lt hdlt) hu.1
      have h1 : 0 ≤ 1 - (last_l_weight / total_weight) ^ (us i) := by linarith
      exact mul_nonneg h1 (le_of_lt htot)
    refine ⟨_, by rw [get_weights_for_sampling, if_neg hcond], ?_, ?_, ?_⟩
    · rw [(List.mergeSort_perm _ _).length_eq, List.length_map, List.length_range,
        hq_int, Int.toNat_of_nonneg (by omega)]
    · exact List.sorted_mergeSort' _
    · rw [hq_int, hval]
      exact List.mergeSort_perm _ _

/-- Witness for the amended C2 theorem at `total_weight = 4`,
`last_l_weight = 1` with the PRNG stream constantly 0. -/
theorem get_weights_for_sampling_spec_witness :
    (get_weights_for_sampling (fun _ => 0) 4 1 = none ↔
      prob_of_adv_succeeding ((1 : Real) / 4) ≤ 0) ∧
    (0 < prob_of_adv_succeeding ((1 : Real) / 4) →
      ∃ l : List Int,
        get_weights_for_sampling (fun _ => 0) 4 1 = some l ∧
        (l.length : Int) =
          ⌊queries_for (prob_of_adv_succeeding ((1 : Real) / 4))⌋ + 1 ∧
        l.Sorted (· ≤ ·) ∧
        l.Perm ((List.range
            (⌊queries_for (prob_of_adv_succeeding ((1 : Real) / 4))⌋ + 1).toNat).map
          (fun i =>
            ⌊(1 - ((1 : Real) / 4) ^ ((fun (_ : Nat) => (0 : Real)) i)) * 4⌋))) :=
  get_weights_for_sampling_spec (fun _ => 0) 4 1 (by norm_num) (by norm_num)
    (fun i => by constructor <;> norm_num)

end WPV2
